import Mathlib

/-!
# Verification of the vigo routing-and-pipeline engine

Shallow embedding of the core of the `vigo` HTTP framework:

* the middleware pipeline (`x.go`: `X.Next`, `X.handleErr`, `release`,
  the `SkipBefore` slicing done by `ServeHTTP`),
* the route tree, segment parser and backtracking matcher
  (`router.go`: `parseSegment`, `get_subrouter`, `Set`, `syncCache`,
  `match`, `ServeHTTP`),
* the key-naming rule of the argument binder (`CamelToSnake` from
  `utils/strings.go`; the binder itself is modelled, see below).

Handlers are embedded deeply: a chain entry is either an adapted
standard handler (`FuncX2AnyErr`), an error handler (`FuncErr`), the
`SkipBefore` sentinel, or an unknown value.  The observable behaviour
of a standard handler is a finite list of actions (emit a side-effect
event / call `x.Next()`) followed by returning a `(value, error)` pair;
the pipeline only ever inspects that pair, so this models the full
family of adapted closures as far as pipeline control flow is
concerned.  `Stop`/`Skip` are not exercised by any claim and are not
modelled inside handler bodies.
-/

namespace Vigo

/-- Model of non-nil Go interface payloads carried in the pipe slot. -/
abbrev PV := Nat

/-- Model of non-nil Go `error` values. -/
abbrev Err := Nat

/-- One step of a standard handler's body: emit an observable side
effect, or re-enter the pipeline via `x.Next()`. -/
inductive Act where
  | emit (e : String)
  | callNext
deriving Repr

/-- A chain entry, mirroring the dynamic type switch in `X.Next`:
`FuncX2AnyErr` (adapted standard handler), `FuncErr` (error handler),
`FuncSkipBefore` (sentinel), or anything else. -/
inductive Entry where
  /-- adapted `func(*X) (any, error)`: named body plus returned pair -/
  | std (name : String) (body : List Act) (retV : Option PV) (retE : Option Err)
  /-- `func(*X, error) error`: consumes an error, returns `none` (nil) or a new error -/
  | errh (name : String) (f : Err → Option Err)
  /-- the `SkipBefore` sentinel -/
  | skipBefore
  /-- a value of any other type (hits the `default` branch of `Next`) -/
  | unknown (name : String)

def Entry.isSkip : Entry → Bool
  | .skipBefore => true
  | _ => false

/-- The mutable part of the request context `X` seen by the pipeline:
cursor `fid`, pipe slot `PipeValue`, and a ghost trace recording the
order of observable side effects (handler events, error-handler
invocations, logged warnings). -/
structure PState where
  fid : Nat
  pipe : Option PV
  trace : List String
deriving Repr

/-- `X.handleErr`: starting at the cursor, scan forward for `FuncErr`
entries; invoke each with the current error; a nil result means the
error is consumed (`true`), a non-nil result replaces the error and the
scan continues; running off the end returns `false`. -/
def handleErr (fcs : List Entry) (st : PState) (er : Err) : PState × Bool :=
  match h : fcs[st.fid]? with
  | none => (st, false)
  | some e =>
    match e with
    | .errh nm f =>
      let st1 : PState := { st with fid := st.fid + 1, trace := st.trace ++ [nm] }
      match f er with
      | none => (st1, true)
      | some er2 => handleErr fcs st1 er2
    | _ => handleErr fcs { st with fid := st.fid + 1 } er
termination_by fcs.length - st.fid
decreasing_by
  all_goals
    have hlt : st.fid < fcs.length := by
      by_contra hge
      rw [List.getElem?_eq_none (Nat.le_of_not_lt hge)] at h
      exact Option.noConfusion h
    omega

mutual

/-- `X.Next`: loop that reads the entry at the cursor, advances the
cursor, executes the entry, and continues until the chain is exhausted
or an error is raised.  `fuel` bounds the number of loop iterations
across all nesting levels; since the cursor strictly increases with
every executed entry, `fcs.length + 1` fuel is always enough (see
`dispatchChain`).  The simultaneous assignment
`x.PipeValue, err = fc(x)` writes the pipe slot before the error is
inspected. -/
def runNext (fcs : List Entry) : Nat → PState → PState
  | 0, st => st
  | fuel + 1, st =>
    match fcs[st.fid]? with
    | none => st
    | some e =>
      match e with
      | .std nm body v err =>
        let st1 := runBody fcs fuel body { st with fid := st.fid + 1 }
        let st2 := { st1 with pipe := v }
        match err with
        | none => runNext fcs fuel st2
        | some er =>
          let r := handleErr fcs st2 er
          if r.2 then r.1
          else { r.1 with trace := r.1.trace ++ ["unhandled error in " ++ nm] }
      | .errh _ _ => runNext fcs fuel { st with fid := st.fid + 1 }
      | .skipBefore =>
        runNext fcs fuel
          { st with fid := st.fid + 1, trace := st.trace ++ ["unknown func type"] }
      | .unknown _ =>
        runNext fcs fuel
          { st with fid := st.fid + 1, trace := st.trace ++ ["unknown func type"] }

/-- Execute a standard handler's body: emits extend the trace, and
`callNext` re-enters the `Next` loop with the current state (this is
what produces the onion wrap). -/
def runBody (fcs : List Entry) : Nat → List Act → PState → PState
  | _, [], st => st
  | fuel, .emit e :: rest, st =>
    runBody fcs fuel rest { st with trace := st.trace ++ [e] }
  | fuel, .callNext :: rest, st =>
    runBody fcs fuel rest (runNext fcs fuel st)

end

/-- A full dispatch of a chain, as `ServeHTTP` performs with its single
`x.Next()` call: the cursor strictly increases with every executed
entry, so `fcs.length + 1` fuel never runs out. -/
def dispatchChain (fcs : List Entry) (st : PState) : PState :=
  runNext fcs (fcs.length + 1) st

/-- A body consisting only of side effects (no nested `Next`). -/
def emits (es : List String) : List Act := es.map Act.emit

/-! ## Route tree (`router.go`) -/

/-- `nodeType`. -/
inductive NType where
  | static | param | wildcard | catchAll | regex
deriving DecidableEq, Repr

/-- A handler chain. -/
abbrev Chain := List Entry

/-- Path parameters: the ordered key/value vector `x.PathParams`
(live window of the underlying slice). -/
abbrev Params := List (String × String)

/-- A route tree node.  `rx` models the compiled regular expression of
a Regex/Composite node as its matching function: applied to a segment
it returns the list of named captures, in sub-expression order, when
the regex fully matches the segment, and `none` otherwise (this is how
`match` uses `FindStringSubmatch` + `SubexpNames`).  The parent
back-reference of the Go struct is not represented; `syncCache` is
reformulated top-down (see `syncTree`). -/
inductive RNode where
  | mk (kind : NType) (fragment : String) (paramName : String)
      (rx : Option (String → Option Params))
      (funcBefore : Chain) (funcAfter : Chain)
      (methods : List (String × Chain))
      (cache : List (String × Chain))
      (children : List RNode)

def RNode.kind : RNode → NType
  | .mk k _ _ _ _ _ _ _ _ => k

def RNode.fragment : RNode → String
  | .mk _ f _ _ _ _ _ _ _ => f

def RNode.paramName : RNode → String
  | .mk _ _ p _ _ _ _ _ _ => p

def RNode.rx : RNode → Option (String → Option Params)
  | .mk _ _ _ r _ _ _ _ _ => r

def RNode.funcBefore : RNode → Chain
  | .mk _ _ _ _ b _ _ _ _ => b

def RNode.funcAfter : RNode → Chain
  | .mk _ _ _ _ _ a _ _ _ => a

def RNode.methods : RNode → List (String × Chain)
  | .mk _ _ _ _ _ _ m _ _ => m

def RNode.cache : RNode → List (String × Chain)
  | .mk _ _ _ _ _ _ _ c _ => c

def RNode.children : RNode → List RNode
  | .mk _ _ _ _ _ _ _ _ ch => ch

theorem RNode.sizeOf_children_lt (r : RNode) : sizeOf r.children < sizeOf r := by
  cases r with
  | mk k f p rx fb fa m c ch => simp [RNode.children]

/-- Association-list lookup, modelling Go map access (`m[k]`). -/
def lookupA (m : List (String × α)) (k : String) : Option α :=
  (m.find? (fun p => p.1 == k)).map (fun p => p.2)

/-- Go map read of a slice-valued map: a missing key yields the nil
slice, i.e. the empty chain. -/
def lookupD (m : List (String × Chain)) (k : String) : Chain :=
  (lookupA m k).getD []

/-- Split off the current path segment: everything up to the first
`'/'`, and the remainder after it (mirrors the `strings.IndexByte`
arithmetic of `match`, including `nextStart` clamping). -/
def splitSeg : List Char → List Char × List Char
  | [] => ([], [])
  | c :: cs =>
    if c = '/' then ([], cs)
    else
      let p := splitSeg cs
      (c :: p.1, p.2)

theorem splitSeg_snd_length_le : ∀ l : List Char, (splitSeg l).2.length ≤ l.length := by
  intro l
  induction l with
  | nil => simp [splitSeg]
  | cons c cs ih =>
    by_cases h : c = '/'
    · simp [splitSeg, h]
    · simp [splitSeg, h]; omega

theorem splitSeg_snd_length_lt (l : List Char) (h : l ≠ []) :
    (splitSeg l).2.length < l.length := by
  cases l with
  | nil => exact absurd rfl h
  | cons c cs =>
    by_cases hc : c = '/'
    · simp [splitSeg, hc]
    · have := splitSeg_snd_length_le cs
      simp [splitSeg, hc]
      omega

/-- The per-child segment test of `match` (the `switch child.kind`
block): returns the extended parameter vector and the remaining path
when the child matches the current segment, `none` otherwise.
`path` is the full remaining path (the code's `path[start:]`), of which
`splitSeg` isolates the current segment. -/
def childAttempt (c : RNode) (path : List Char) (ps : Params) :
    Option (Params × List Char) :=
  let sr := splitSeg path
  let seg := String.mk sr.1
  match c.kind with
  | .static => if c.fragment = seg then some (ps, sr.2) else none
  | .param =>
    some ((if c.paramName ≠ "" then ps ++ [(c.paramName, seg)] else ps), sr.2)
  | .wildcard =>
    some ((if c.paramName ≠ "" then ps ++ [(c.paramName, seg)] else ps), sr.2)
  | .catchAll =>
    some ((if c.paramName ≠ "" then ps ++ [(c.paramName, String.mk path)] else ps), [])
  | .regex =>
    match c.rx with
    | none => none
    | some f => (f seg).map (fun caps => (ps ++ caps, sr.2))

theorem childAttempt_np (c : RNode) (path : List Char) (ps ps1 : Params)
    (np : List Char) (h : childAttempt c path ps = some (ps1, np)) :
    np = (splitSeg path).2 ∨ np = [] := by
  unfold childAttempt at h
  repeat' split at h
  all_goals (try (repeat' split at h))
  all_goals simp_all
  all_goals
    obtain ⟨a, -, -, h3⟩ := h
    exact Or.inl h3.symm

theorem childAttempt_np_length (c : RNode) (path : List Char) (ps ps1 : Params)
    (np : List Char) (h : childAttempt c path ps = some (ps1, np)) :
    np.length ≤ path.length := by
  rcases childAttempt_np c path ps ps1 np h with h2 | h2
  · rw [h2]; exact splitSeg_snd_length_le path
  · simp [h2]

mutual

/-- `route.match`: on an exhausted path accept the node if it has a
handler record for the method, else under `ANY`, else let a catch-all
child accept the empty remainder; otherwise isolate the next segment
and try the children in order.  Returns the matched node and its
cached chain together with the parameter vector after the call (the
code mutates `x.PathParams`; failed attempts truncate it back). -/
def rmatch (r : RNode) (path : List Char) (method : String) (ps : Params) :
    Option (RNode × Chain) × Params :=
  match path with
  | [] =>
    match lookupA r.methods method with
    | some _ => (some (r, lookupD r.cache method), ps)
    | none =>
      match lookupA r.methods "ANY" with
      | some _ => (some (r, lookupD r.cache "ANY"), ps)
      | none => tryEmpty r.children method ps
  | c :: cs => matchChildren r.children (c :: cs) method ps
termination_by (path.length, sizeOf r)
decreasing_by
  · exact Prod.Lex.right _ (RNode.sizeOf_children_lt r)
  · exact Prod.Lex.right _ (RNode.sizeOf_children_lt r)

/-- The base-case loop of `match`: only catch-all children may accept
an empty remainder; a named one binds the empty string; a failed
attempt truncates the parameter vector back. -/
def tryEmpty (l : List RNode) (method : String) (ps : Params) :
    Option (RNode × Chain) × Params :=
  match l with
  | [] => (none, ps)
  | c :: cs =>
    match c.kind with
    | .catchAll =>
      let stackLen := ps.length
      let ps1 := if c.paramName ≠ "" then ps ++ [(c.paramName, "")] else ps
      let res := rmatch c [] method ps1
      match res.1 with
      | some v => (some v, res.2)
      | none => tryEmpty cs method (res.2.take stackLen)
    | _ => tryEmpty cs method ps
termination_by ((0 : Nat), sizeOf l)
decreasing_by
  all_goals apply Prod.Lex.right
  all_goals simp
  all_goals omega

/-- The segment loop of `match`: children are tried in order; a child
that matches the segment is recursed into; if the recursion yields no
terminal, the parameter vector is truncated to its length from before
the attempt and the next sibling is tried. -/
def matchChildren (l : List RNode) (path : List Char) (method : String)
    (ps : Params) : Option (RNode × Chain) × Params :=
  match l with
  | [] => (none, ps)
  | c :: cs =>
    let stackLen := ps.length
    match hca : childAttempt c path ps with
    | none => matchChildren cs path method ps
    | some (ps1, np) =>
      let res := rmatch c np method ps1
      match res.1 with
      | some v => (some v, res.2)
      | none => matchChildren cs path method (res.2.take stackLen)
termination_by (path.length, sizeOf l)
decreasing_by
  · apply Prod.Lex.right; simp
  · have hle := childAttempt_np_length c path ps ps1 np hca
    rcases Nat.lt_or_ge np.length path.length with hlt | hge
    · exact Prod.Lex.left _ _ hlt
    · have heq : np.length = path.length := Nat.le_antisymm hle hge
      rw [heq]
      apply Prod.Lex.right
      simp
      omega
  · apply Prod.Lex.right; simp

end

/-! ## Registration (`parseSegment`, `get_subrouter`, `Set`, `Use`,
`After`, `syncCache`) -/

/-- `parseSegment`: classify one path segment.  For the Regex/Composite
branch the Go code compiles the segment to a `regexp.Regexp`; that
external compilation is not modelled (nodes created here get `rx :=
none`), and no claim registers a regex segment. -/
def parseSegment (seg : String) : NType × String :=
  if seg = "**" then (.catchAll, "")
  else if seg = "*" then (.wildcard, "")
  else if !(seg.data.any (fun c => c == '{' || c == '*')) then (.static, "")
  else if seg.data.head? == some '{' && [':', '*', '}'].isSuffixOf seg.data then
    (.catchAll, String.mk ((seg.data.drop 1).take (seg.data.length - 4)))
  else if seg.data.head? == some '{' && seg.data.getLast? == some '}' &&
      seg.data.count '{' == 1 && !((seg.data.drop 1).dropLast.contains ':') then
    (.param, String.mk ((seg.data.drop 1).dropLast))
  else (.regex, "")

def RNode.isWild (c : RNode) : Bool :=
  decide (c.kind = .wildcard ∨ c.kind = .catchAll)

/-- The `sort.SliceStable` of `get_subrouter`: wildcard and catch-all
children move after all other children; otherwise the original order is
preserved.  This is exactly a stable partition. -/
def sortChildren (l : List RNode) : List RNode :=
  l.filter (fun c => !c.isWild) ++ l.filter (fun c => c.isWild)

/-- A freshly created tree node (`&route{...}` in `get_subrouter`). -/
def newNode (kind : NType) (seg : String) (pName : String) : RNode :=
  .mk kind seg pName none [] [] [] [] []

def RNode.withChildren : RNode → List RNode → RNode
  | .mk k f p rx fb fa m c _, ch => .mk k f p rx fb fa m c ch

def RNode.withMethods : RNode → List (String × Chain) → RNode
  | .mk k f p rx fb fa _ c ch, m => .mk k f p rx fb fa m c ch

def RNode.withBefore : RNode → Chain → RNode
  | .mk k f p rx _ fa m c ch, fb => .mk k f p rx fb fa m c ch

def RNode.withAfter : RNode → Chain → RNode
  | .mk k f p rx fb _ m c ch, fa => .mk k f p rx fb fa m c ch

/-- Go map assignment `m[k] = v` on the association-list model. -/
def assocSet (m : List (String × α)) (k : String) (v : α) : List (String × α) :=
  if m.any (fun p => p.1 == k) then
    m.map (fun p => if p.1 == k then (k, v) else p)
  else m ++ [(k, v)]

/-- `strings.Split(path, "/")` for the one-character separator: cut at
every `'/'`, keeping empty pieces (`Split("", "/") = [""]`). -/
def splitOnSlash (acc : List Char) : List Char → List String
  | [] => [String.mk acc.reverse]
  | c :: cs =>
    if c = '/' then String.mk acc.reverse :: splitOnSlash [] cs
    else splitOnSlash (c :: acc) cs

/-- The path-splitting prelude of `get_subrouter`: strip one leading
and one trailing `'/'` and split on `'/'` (empty and `"/"` paths
address the node itself). -/
def pathSegs (p : String) : List String :=
  if p = "" || p = "/" then []
  else
    let l := p.data
    let l1 := match l with | '/' :: rest => rest | other => other
    let l2 := match l1.reverse with | '/' :: rest => rest.reverse | _ => l1
    splitOnSlash [] l2

def findChildIdx (l : List RNode) (kind : NType) (seg : String) : Option Nat :=
  l.findIdx? (fun c => decide (c.kind = kind ∧ c.fragment = seg))

/-- The walk/create loop of `get_subrouter`, combined with the update
the caller performs on the returned node (the Go code returns a pointer
into the tree and mutates it in place). -/
def insertPath (r : RNode) (segs : List String) (upd : RNode → RNode) : RNode :=
  match segs with
  | [] => upd r
  | seg :: rest =>
    let kp := parseSegment seg
    match findChildIdx r.children kp.1 seg with
    | some i =>
      match r.children[i]? with
      | some c => r.withChildren (r.children.set i (insertPath c rest upd))
      | none => r
    | none =>
      let child := insertPath (newNode kp.1 seg kp.2) rest upd
      r.withChildren (sortChildren (r.children ++ [child]))

/- `syncCache`, reformulated top-down: the Go version climbs the
parent chain to collect ancestor before/after vectors and then recurses
into every descendant; passing the accumulated vectors downward
computes the same flattened chain
`ancestors.before ++ node.before ++ handlers ++ node.after ++ ancestors.after`
for every node.  Registration re-syncs only the affected subtree, but
nodes outside it have unchanged inputs, so rebuilding the whole tree
yields identical caches. -/
mutual

/-- `syncCache` for one node: cache every method's flattened chain and
recurse into the children. -/
def syncTree (before after : Chain) : RNode → RNode
  | .mk k f p rx fb fa m _ ch =>
    let before2 := before ++ fb
    let after2 := fa ++ after
    .mk k f p rx fb fa m
      (m.map (fun km => (km.1, before2 ++ km.2 ++ after2)))
      (syncList before2 after2 ch)

/-- The `for _, sub := range r.children { sub.syncCache() }` loop. -/
def syncList (before after : Chain) : List RNode → List RNode
  | [] => []
  | c :: cs => syncTree before after c :: syncList before after cs

end

/-- `route.Set`: walk/create the node for the path, install the handler
record for the (already upper-cased, allowed) method, and re-synthesize
the cache.  The Go code filters the variadic argument list (string
descriptions, argument schemas) and adapts plain functions via
`TryStandardize`; chain entries here are already in adapted form. -/
def routeSet (root : RNode) (path : String) (method : String) (hs : Chain) : RNode :=
  syncTree [] []
    (insertPath root (pathSegs path)
      (fun n => n.withMethods (assocSet n.methods method hs)))

/-- `route.Use` on a node with no method selector: append to the
node-local `funcBefore` and re-sync (shown here applied at the root). -/
def routeUse (root : RNode) (ms : Chain) : RNode :=
  syncTree [] [] (root.withBefore (root.funcBefore ++ ms))

/-- `route.After` on a node with no method selector: append to the
node-local `funcAfter` and re-sync (shown here applied at the root). -/
def routeAfter (root : RNode) (ms : Chain) : RNode :=
  syncTree [] [] (root.withAfter (root.funcAfter ++ ms))

/-- `NewRouter()`: root node with empty fragment. -/
def newRouter : RNode := .mk .static "" "" none [] [] [] [] []

/-! ## `ServeHTTP` -/

/-- Strip one leading `'/'` (`if len(path) > 0 && path[0] == '/'`). -/
def stripLead : List Char → List Char
  | '/' :: rest => rest
  | l => l

/-- Strip one trailing `'/'`
(`if len(path) > 0 && path[len(path)-1] == '/'`). -/
def stripTrail (l : List Char) : List Char :=
  match l.reverse with
  | '/' :: rest => rest.reverse
  | _ => l

def stripSlashes (l : List Char) : List Char := stripTrail (stripLead l)

/-- The index of the last `SkipBefore` sentinel in a chain
(the `for i := range fcs` loop of `ServeHTTP` keeps overwriting
`skipIdx`, so the last occurrence wins). -/
def lastSkipIdx : List Entry → Option Nat
  | [] => none
  | e :: rest =>
    match lastSkipIdx rest with
    | some i => some (i + 1)
    | none => if e.isSkip then some 0 else none

/-- `ServeHTTP`'s chain slicing: when a `SkipBefore` sentinel is
present the chain restarts immediately after the last one. -/
def sliceSkipBefore (fcs : Chain) : Chain :=
  match lastSkipIdx fcs with
  | some i => fcs.drop (i + 1)
  | none => fcs

/-- Outcome of `ServeHTTP`: either `x.WriteHeader(404)`, or a dispatch
of the (sliced) matched chain with the matched node and the
path-parameter bindings the handlers observe. -/
inductive ServeResult where
  | notFound
  | ran (node : RNode) (params : Params) (final : PState)

/-- `route.ServeHTTP`: normalize the URL path, match, 404 when nothing
matched or the matched chain is empty, otherwise slice off everything
up to the last `SkipBefore` sentinel and run the pipeline. -/
def serve (root : RNode) (method : String) (rawPath : String) : ServeResult :=
  let path := stripSlashes rawPath.data
  let res := rmatch root path method []
  match res.1 with
  | some nf =>
    if nf.2.length > 0 then
      let fcs2 := sliceSkipBefore nf.2
      .ran nf.1 res.2 (dispatchChain fcs2 { fid := 0, pipe := none, trace := [] })
    else .notFound
  | none => .notFound

/-! ## Context pooling (`acquire`/`release` in `x.go`) -/

/-- A Go slice of `Param` together with its backing array: the live
window is `backing.take len`; truncation (`s = s[:n]`) shrinks `len`
but leaves the backing entries in place, which is exactly what
`release` must compensate for. -/
structure PPVec where
  backing : List (String × String)
  len : Nat
deriving Repr

/-- The reference-holding fields of the pooled context `X`.  `request`,
`writer` and `routeVars` are opaque references (present or nil);
`fcsInfo` is the parallel introspection vector (`[]*HandlerInfo`),
modelled by the handler names it exposes. -/
structure XState where
  request : Option Nat
  writer : Option Nat
  pathParams : PPVec
  routeVars : Option (List (String × Nat))
  fcs : List Entry
  fcsInfo : List String
  fid : Nat
  pipeValue : Option PV

/-- `x.PathParams[i] = Param{}` for every `i` in range of the live
window: overwrite the first `n` entries of the backing array with the
zero `Param`. -/
def clearUpTo : Nat → List (String × String) → List (String × String)
  | _, [] => []
  | 0, l => l
  | n + 1, _ :: rest => ("", "") :: clearUpTo n rest

/-- `release(x)`: reset the cursor, zero each entry of the live window
of the path-parameter slice (`for i := range x.PathParams`) and
truncate it to length zero (`x.PathParams = x.PathParams[:0]`), and nil
out request, writer, routeVars, fcs and PipeValue.  The Go function
does not touch `x.fcsInfo`. -/
def releaseX (x : XState) : XState :=
  { fid := 0
    pathParams :=
      { backing := clearUpTo x.pathParams.len x.pathParams.backing
        len := 0 }
    request := none
    writer := none
    routeVars := none
    fcs := []
    pipeValue := none
    fcsInfo := x.fcsInfo }

/-! ## Binder key naming

The binder (`X.Parse`) decodes one request into one destination struct;
its implementation lives outside the files available here — only its
callers (`types.go`) and its tests (`TestParseEmptyVsMissing` etc.) are
present.  The untagged lookup-key rule can therefore only be judged
against the binding facts the passing in-repo tests pin down:

* `TestParseEmptyVsMissing` binds the untagged fields `QReq`/`QOpt`,
  `FReq`/`FOpt`, `PReq`/`POpt` from sources whose keys are exactly the
  snake-cased names `q_req`/`q_opt`, `f_req`/`f_opt`, `p_req`/`p_opt`;
* `TestParseQuery`, `TestParsePath` and `TestParseForm` bind `Page`,
  `Sort`, `ID`, `Slug`, `Username`, `Active` from keys `page`, `sort`,
  `id`, `slug`, `username`, `active`;
* `TestPipeline_Standardize` binds field `Name` from a query holding
  only the key `Name`, and `TestPipeline_AutoStandardize` binds field
  `ID` from the path parameter registered as `{ID}` — the original
  field casing.

Each fact is recorded below as the field's Go name together with the
exact set of keys present in its source at parse time (header facts are
omitted: `net/http` canonicalises header keys, so a header lookup is
not an exact map access).  A candidate key rule is a boolean predicate
"this source key binds this field"; the development compares the spec's
literal-name rule and two candidates against this evidence.  The
snake-casing itself is `utils.CamelToSnake`, transcribed below. -/

/-- `utils.CamelToSnake`, transcribed from `utils/strings.go` (the
`unicode` predicates agree with `Char.isUpper`/`isLower`/`isDigit` on
ASCII, and Go struct-field names are ASCII identifiers).  `prev` is the
previous original rune, `rest` exposes the lookahead at the next
rune. -/
def ctsGo : Option Char → List Char → List Char
  | _, [] => []
  | prev, r :: rest =>
    if r.isUpper then
      let need :=
        match prev with
        | none => false
        | some p =>
          if p.isLower || p.isDigit then true
          else if p.isUpper then
            match rest with
            | n :: _ => n.isLower
            | [] => false
          else false
      (if need then ['_', r.toLower] else [r.toLower]) ++ ctsGo (some r) rest
    else r :: ctsGo (some r) rest

def camelToSnake (s : String) : String := String.mk (ctsGo none s.data)

/-- A candidate key rule for the binder's untagged fallback: given the
Go name of a destination field (no `@` alias, no `json` tag) and the
key of one entry present in the field's source, decide whether that
entry binds the field. -/
abbrev KeyRule : Type := String → String → Bool

/-- Modelled from the spec: the spec's untagged fallback — "else the
literal field name" — rendered as a key rule: an entry binds the field
iff its key is exactly the field's Go name.  (`X.Parse` itself is
absent from the sources; this definition follows the spec's words and
is compared against the in-repo test evidence.) -/
def litRule : KeyRule := fun fname key => fname == key

/-- Candidate rule: an entry binds the field iff its key is exactly the
snake-cased field name (`utils.CamelToSnake`). -/
def snakeRule : KeyRule := fun fname key => key == camelToSnake fname

/-- Candidate rule: an entry binds the field iff its key is the literal
field name or its snake-cased form. -/
def eitherRule : KeyRule :=
  fun fname key => fname == key || key == camelToSnake fname

/-- One binding fact pinned by a passing in-repo test: an untagged
destination field, named `fname`, binds from a source whose present
keys are exactly `keys`. -/
structure BindFact where
  fname : String
  keys : List String

/-- A key rule accounts for a binding fact iff it lets some present key
bind the field. -/
def factHolds (rule : KeyRule) (fa : BindFact) : Bool :=
  fa.keys.any (rule fa.fname)

/-- The untagged binding facts transcribed from the repository's
binder and pipeline tests (field name, exact keys present in that
field's source; header sources omitted — see the section comment). -/
def binderEvidence : List BindFact :=
  [ { fname := "QReq", keys := ["q_req", "q_opt"] },
    { fname := "QOpt", keys := ["q_req", "q_opt"] },
    { fname := "FReq", keys := ["f_req", "f_opt"] },
    { fname := "FOpt", keys := ["f_req", "f_opt"] },
    { fname := "PReq", keys := ["p_req", "p_opt"] },
    { fname := "POpt", keys := ["p_req", "p_opt"] },
    { fname := "Page", keys := ["page", "sort"] },
    { fname := "Sort", keys := ["page", "sort"] },
    { fname := "ID", keys := ["id", "slug"] },
    { fname := "Slug", keys := ["id", "slug"] },
    { fname := "Username", keys := ["username", "active"] },
    { fname := "Active", keys := ["username", "active"] },
    { fname := "Name", keys := ["Name"] },
    { fname := "ID", keys := ["ID"] } ]

/-- A key rule is consistent with the recorded test evidence iff it
accounts for every binding fact. -/
def evidenceHolds (rule : KeyRule) : Bool :=
  binderEvidence.all (factHolds rule)

/-! ## Shared lemmas about the matcher -/

theorem childAttempt_extend (c : RNode) (path : List Char) (ps ps1 : Params)
    (np : List Char) (h : childAttempt c path ps = some (ps1, np)) :
    ∃ d, ps1 = ps ++ d := by
  unfold childAttempt at h
  repeat' split at h
  all_goals simp_all
  all_goals first
    | exact ⟨_, h.1.symm⟩
    | (obtain ⟨a, -, h2, -⟩ := h; exact ⟨a, h2.symm⟩)
    | (refine ⟨[], ?_⟩; simp [h.1])
    | (refine ⟨[], ?_⟩; simp [← h.1])
    | (refine ⟨[], ?_⟩; simp)

/-- Unfolding `matchChildren` when the head child does not match the
segment. -/
theorem matchChildren_cons_none (c : RNode) (cs : List RNode) (path : List Char)
    (method : String) (ps : Params) (hca : childAttempt c path ps = none) :
    matchChildren (c :: cs) path method ps = matchChildren cs path method ps := by
  simp only [matchChildren]
  split
  · rfl
  · simp_all

/-- Unfolding `matchChildren` when the head child matches the segment
but the recursion below it finds no terminal: the parameter vector is
truncated to its pre-attempt length and the next sibling is tried. -/
theorem matchChildren_cons_fail (c : RNode) (cs : List RNode) (path : List Char)
    (method : String) (ps ps1 : Params) (np : List Char)
    (hca : childAttempt c path ps = some (ps1, np))
    (hfail : (rmatch c np method ps1).1 = none) :
    matchChildren (c :: cs) path method ps =
      matchChildren cs path method ((rmatch c np method ps1).2.take ps.length) := by
  simp only [matchChildren]
  split
  · simp_all
  · rename_i ps1a npa heq
    rw [hca] at heq
    injection heq with h3
    injection h3 with h4 h5
    subst h4
    subst h5
    split
    · rename_i v hv
      rw [hfail] at hv
      exact Option.noConfusion hv
    · rfl

/-- Unfolding `matchChildren` when the head child matches and the
recursion below it reaches a terminal: the first hit wins. -/
theorem matchChildren_cons_hit (c : RNode) (cs : List RNode) (path : List Char)
    (method : String) (ps ps1 : Params) (np : List Char) (v : RNode × Chain)
    (hca : childAttempt c path ps = some (ps1, np))
    (hv : (rmatch c np method ps1).1 = some v) :
    matchChildren (c :: cs) path method ps = (some v, (rmatch c np method ps1).2) := by
  simp only [matchChildren]
  split
  · simp_all
  · rename_i ps1a npa heq
    rw [hca] at heq
    injection heq with h3
    injection h3 with h4 h5
    subst h4
    subst h5
    split
    · rename_i v2 hv2
      rw [hv] at hv2
      injection hv2 with h6
      rw [h6]
    · rename_i hn
      rw [hv] at hn
      exact Option.noConfusion hn

/-- The parameter bindings a catch-all child receives for the empty
remainder. -/
def caBind (c : RNode) (ps : Params) : Params :=
  if c.paramName ≠ "" then ps ++ [(c.paramName, "")] else ps

theorem tryEmpty_cons_other (c : RNode) (cs : List RNode) (method : String)
    (ps : Params) (hk : c.kind ≠ .catchAll) :
    tryEmpty (c :: cs) method ps = tryEmpty cs method ps := by
  simp only [tryEmpty]

theorem tryEmpty_cons_ca_fail (c : RNode) (cs : List RNode) (method : String)
    (ps : Params) (hk : c.kind = .catchAll)
    (hfail : (rmatch c [] method (caBind c ps)).1 = none) :
    tryEmpty (c :: cs) method ps =
      tryEmpty cs method ((rmatch c [] method (caBind c ps)).2.take ps.length) := by
  simp only [tryEmpty]
  split
  · rename_i heq
    simp only [caBind] at hfail ⊢
    split
    · rename_i v hv
      rw [hfail] at hv
      exact Option.noConfusion hv
    · rfl
  · simp_all

theorem tryEmpty_cons_ca_hit (c : RNode) (cs : List RNode) (method : String)
    (ps : Params) (v : RNode × Chain) (hk : c.kind = .catchAll)
    (hv : (rmatch c [] method (caBind c ps)).1 = some v) :
    tryEmpty (c :: cs) method ps = (some v, (rmatch c [] method (caBind c ps)).2) := by
  simp only [tryEmpty]
  split
  · rename_i heq
    simp only [caBind] at hv ⊢
    split
    · rename_i v2 hv2
      rw [hv] at hv2
      injection hv2 with h6
      rw [h6]
    · rename_i hn
      rw [hv] at hn
      exact Option.noConfusion hn
  · simp_all

/-- Unfolding `rmatch` on the empty remainder. -/
theorem rmatch_nil (r : RNode) (method : String) (ps : Params) :
    rmatch r [] method ps =
      match lookupA r.methods method with
      | some _ => (some (r, lookupD r.cache method), ps)
      | none =>
        match lookupA r.methods "ANY" with
        | some _ => (some (r, lookupD r.cache "ANY"), ps)
        | none => tryEmpty r.children method ps := by
  simp only [rmatch]

/-- Unfolding `rmatch` on a nonempty remainder. -/
theorem rmatch_cons (r : RNode) (c : Char) (cs : List Char) (method : String)
    (ps : Params) :
    rmatch r (c :: cs) method ps = matchChildren r.children (c :: cs) method ps := by
  simp only [rmatch]

/-- Backtracking restores the parameter vector: whenever a (sub-)match
fails to produce a terminal, the parameter vector it hands back equals
the one it received. -/
theorem rmatch_restore :
    ∀ (r : RNode) (path : List Char) (method : String) (ps : Params),
      (rmatch r path method ps).1 = none → (rmatch r path method ps).2 = ps := by
  have H := rmatch.induct
    (fun r path method ps =>
      (rmatch r path method ps).1 = none → (rmatch r path method ps).2 = ps)
    (fun l path method ps =>
      (matchChildren l path method ps).1 = none →
        (matchChildren l path method ps).2 = ps)
    (fun l method ps =>
      (tryEmpty l method ps).1 = none → (tryEmpty l method ps).2 = ps)
  apply H
  · intro r method ps val hm hnone
    rw [rmatch_nil, hm] at hnone
    exact Option.noConfusion hnone
  · intro r method ps hm val ha hnone
    rw [rmatch_nil, hm, ha] at hnone
    exact Option.noConfusion hnone
  · intro r method ps hm ha ih
    rw [rmatch_nil, hm, ha]
    exact ih
  · intro r method ps c cs ih
    rw [rmatch_cons]
    exact ih
  · intro path method ps
    intro _
    simp [matchChildren]
  · intro path method ps c cs hca ih
    rw [matchChildren_cons_none c cs path method ps hca]
    exact ih
  · intro path method ps c cs ps1 np hca res v hv ih1
    intro h
    rw [matchChildren_cons_hit c cs path method ps ps1 np v hca hv] at h
    exact Option.noConfusion h
  · intro path method ps c cs stackLen ps1 np hca res hv ih1 ih2
    have hv2 : (rmatch c np method ps1).1 = none := hv
    have hres2 : (rmatch c np method ps1).2 = ps1 := ih1 hv
    obtain ⟨d, hd⟩ := childAttempt_extend c path ps ps1 np hca
    have htake : (rmatch c np method ps1).2.take ps.length = ps := by
      rw [hres2, hd]
      simpa using List.take_left ps d
    have he : List.take stackLen res.2 = ps := htake
    rw [he] at ih2
    intro h
    rw [matchChildren_cons_fail c cs path method ps ps1 np hca hv2, htake] at h
    rw [matchChildren_cons_fail c cs path method ps ps1 np hca hv2, htake]
    exact ih2 h
  · intro method ps
    intro _
    simp [tryEmpty]
  · intro method ps c cs hk ps1 res v hv ih1
    intro h
    have hv2 : (rmatch c [] method (caBind c ps)).1 = some v := hv
    rw [tryEmpty_cons_ca_hit c cs method ps v hk hv2] at h
    exact Option.noConfusion h
  · intro method ps c cs hk stackLen ps1 res hv ih1 ih1b ih2
    have hv2 : (rmatch c [] method (caBind c ps)).1 = none := hv
    have hres2 : (rmatch c [] method (caBind c ps)).2 = caBind c ps := ih1b hv2
    have htake : (rmatch c [] method (caBind c ps)).2.take ps.length = ps := by
      rw [hres2]
      unfold caBind
      by_cases hp : c.paramName ≠ ""
      · rw [if_pos hp]
        simpa using List.take_left ps [(c.paramName, "")]
      · rw [if_neg hp]
        simp
    have he : List.take stackLen res.2 = ps := htake
    rw [he] at ih2
    intro h
    rw [tryEmpty_cons_ca_fail c cs method ps hk hv2, htake] at h
    rw [tryEmpty_cons_ca_fail c cs method ps hk hv2, htake]
    exact ih2 h
  · intro method ps c cs hk ih
    intro h
    rw [tryEmpty_cons_other c cs method ps (by simpa using hk)] at h ⊢
    exact ih h

/-! ## Shared lemmas about the pipeline -/

theorem runBody_emits (fcs : List Entry) (fuel : Nat) (es : List String)
    (st : PState) :
    runBody fcs fuel (emits es) st = { st with trace := st.trace ++ es } := by
  induction es generalizing st with
  | nil => simp [emits, runBody]
  | cons e rest ih =>
    simp only [emits, List.map_cons, runBody]
    rw [show (emits rest) = rest.map Act.emit from rfl] at ih
    rw [ih]
    simp

/-- The spec's forward error search, phrased directly on the remaining
chain: the names of the error handlers invoked in order (each receives
the current error; a nil result stops the search as consumed, a non-nil
result replaces the error), and whether one of them consumed it. -/
def errSearchSpec : List Entry → Err → List String × Bool
  | [], _ => ([], false)
  | .errh nm f :: rest, er =>
    match f er with
    | none => ([nm], true)
    | some e2 => (nm :: (errSearchSpec rest e2).1, (errSearchSpec rest e2).2)
  | _ :: rest, er => errSearchSpec rest er

theorem drop_cons_of_getElem? {α : Type _} (l : List α) (i : Nat) (a : α)
    (h : l[i]? = some a) : l.drop i = a :: l.drop (i + 1) := by
  have hi : i < l.length := by
    by_contra hge
    rw [List.getElem?_eq_none (Nat.le_of_not_lt hge)] at h
    exact Option.noConfusion h
  have ha : l[i] = a := by
    have := List.getElem?_eq_getElem hi
    rw [this] at h
    injection h
  rw [List.drop_eq_getElem_cons hi, ha]

def Entry.isErrh : Entry → Bool
  | .errh _ _ => true
  | _ => false

theorem handleErr_none (fcs : List Entry) (st : PState) (er : Err)
    (h : fcs[st.fid]? = none) : handleErr fcs st er = (st, false) := by
  rw [handleErr]
  split
  · rfl
  · simp_all

theorem handleErr_errh (fcs : List Entry) (st : PState) (er : Err)
    (nm : String) (f : Err → Option Err)
    (h : fcs[st.fid]? = some (.errh nm f)) :
    handleErr fcs st er =
      (match f er with
       | none => ({ st with fid := st.fid + 1, trace := st.trace ++ [nm] }, true)
       | some er2 =>
          handleErr fcs { st with fid := st.fid + 1, trace := st.trace ++ [nm] } er2) := by
  rw [handleErr]
  split
  · simp_all
  · rename_i e heq
    rw [h] at heq
    injection heq with heq2
    cases heq2
    rfl

theorem handleErr_other (fcs : List Entry) (st : PState) (er : Err) (e : Entry)
    (h : fcs[st.fid]? = some e) (hne : e.isErrh = false) :
    handleErr fcs st er = handleErr fcs { st with fid := st.fid + 1 } er := by
  rw [handleErr]
  split
  · simp_all
  · rename_i e2 heq
    rw [h] at heq
    injection heq with heq2
    cases heq2
    cases e with
    | errh nm f => simp [Entry.isErrh] at hne
    | std nm body v err => rfl
    | skipBefore => rfl
    | unknown nm => rfl

/-- `handleErr` refines `errSearchSpec`: it invokes exactly the error
handlers the forward search names, reports the same consumption flag,
and leaves the pipe slot untouched (no normal handler runs). -/
theorem handleErr_spec (fcs : List Entry) :
    ∀ (st : PState) (er : Err),
      (handleErr fcs st er).1.pipe = st.pipe ∧
      (handleErr fcs st er).1.trace =
        st.trace ++ (errSearchSpec (fcs.drop st.fid) er).1 ∧
      (handleErr fcs st er).2 = (errSearchSpec (fcs.drop st.fid) er).2 := by
  have H := handleErr.induct fcs
    (fun st er =>
      (handleErr fcs st er).1.pipe = st.pipe ∧
      (handleErr fcs st er).1.trace =
        st.trace ++ (errSearchSpec (fcs.drop st.fid) er).1 ∧
      (handleErr fcs st er).2 = (errSearchSpec (fcs.drop st.fid) er).2)
  apply H
  · intro st er h
    have hdrop : fcs.drop st.fid = [] := by
      apply List.drop_eq_nil_of_le
      by_contra hlt
      rw [List.getElem?_eq_getElem (Nat.lt_of_not_le hlt)] at h
      exact Option.noConfusion h
    rw [handleErr_none fcs st er h, hdrop]
    simp [errSearchSpec]
  · intro st er nm f h hf _
    have hdrop := drop_cons_of_getElem? fcs st.fid _ h
    rw [handleErr_errh fcs st er nm f h, hdrop]
    simp [hf, errSearchSpec]
  · intro st er nm f h st1 er2 hf _ ih
    have hdrop := drop_cons_of_getElem? fcs st.fid _ h
    rw [handleErr_errh fcs st er nm f h, hdrop]
    simp only [hf, errSearchSpec]
    obtain ⟨ih1, ih2, ih3⟩ := ih
    refine ⟨ih1, ?_, ih3⟩
    rw [ih2]
    simp [st1]
  · intro st er e h h2 hne ih
    have hdrop := drop_cons_of_getElem? fcs st.fid _ h
    obtain ⟨ih1, ih2, ih3⟩ := ih
    have hee : e.isErrh = false := by
      cases e with
      | errh nm f => exact (hne nm f h rfl (HEq.refl h)).elim
      | std nm body v err => rfl
      | skipBefore => rfl
      | unknown nm => rfl
    have hspec : errSearchSpec (fcs.drop st.fid) er =
        errSearchSpec (fcs.drop (st.fid + 1)) er := by
      rw [hdrop]
      cases e with
      | errh nm f => simp [Entry.isErrh] at hee
      | std nm body v err => simp [errSearchSpec]
      | skipBefore => simp [errSearchSpec]
      | unknown nm => simp [errSearchSpec]
    rw [handleErr_other fcs st er e h hee]
    exact ⟨ih1, by rw [ih2, hspec], by rw [ih3, hspec]⟩

/-! ## Shared lemmas about `SkipBefore` slicing -/

theorem lastSkipIdx_none (l : List Entry) (h : ∀ e ∈ l, e.isSkip = false) :
    lastSkipIdx l = none := by
  induction l with
  | nil => rfl
  | cons e rest ih =>
    have he : e.isSkip = false := h e (List.mem_cons_self e rest)
    have hrest := ih (fun x hx => h x (List.mem_cons_of_mem e hx))
    simp [lastSkipIdx, hrest, he]

theorem lastSkipIdx_append (pre rest : List Entry)
    (h : ∀ e ∈ rest, e.isSkip = false) :
    lastSkipIdx (pre ++ .skipBefore :: rest) = some pre.length := by
  induction pre with
  | nil =>
    simp [lastSkipIdx, lastSkipIdx_none rest h, Entry.isSkip]
  | cons e pre' ih =>
    simp [lastSkipIdx, ih]

theorem sliceSkipBefore_append (pre rest : List Entry)
    (h : ∀ e ∈ rest, e.isSkip = false) :
    sliceSkipBefore (pre ++ .skipBefore :: rest) = rest := by
  rw [sliceSkipBefore, lastSkipIdx_append pre rest h]
  show (pre ++ Entry.skipBefore :: rest).drop (pre.length + 1) = rest
  rw [show (pre ++ Entry.skipBefore :: rest).drop (pre.length + 1)
      = (Entry.skipBefore :: rest).drop 1 from List.drop_append 1]
  rfl

/-! ## Shared lemmas for termination and path normalization -/

theorem caBind_take (c : RNode) (ps : Params) :
    (caBind c ps).take ps.length = ps := by
  unfold caBind
  by_cases hp : c.paramName ≠ ""
  · rw [if_pos hp]
    simpa using List.take_left ps [(c.paramName, "")]
  · rw [if_neg hp]
    simp

/-- The base-case catch-all fallback accepts iff some catch-all child
accepts the empty remainder. -/
theorem tryEmpty_isSome_iff (l : List RNode) (method : String) (ps : Params) :
    (tryEmpty l method ps).1.isSome = true ↔
      ∃ c ∈ l, c.kind = .catchAll ∧
        (rmatch c [] method (caBind c ps)).1.isSome = true := by
  induction l with
  | nil => simp [tryEmpty]
  | cons c cs ih =>
    by_cases hk : c.kind = .catchAll
    · cases hres : (rmatch c [] method (caBind c ps)).1 with
      | some v =>
        rw [tryEmpty_cons_ca_hit c cs method ps v hk hres]
        simp only [Option.isSome_some, true_iff]
        exact ⟨c, List.mem_cons_self c cs, hk, by rw [hres]; rfl⟩
      | none =>
        have hrest : (rmatch c [] method (caBind c ps)).2 = caBind c ps :=
          rmatch_restore c [] method (caBind c ps) hres
        rw [tryEmpty_cons_ca_fail c cs method ps hk hres, hrest, caBind_take]
        rw [ih]
        constructor
        · rintro ⟨c2, hmem, hk2, hsome⟩
          exact ⟨c2, List.mem_cons_of_mem c hmem, hk2, hsome⟩
        · rintro ⟨c2, hmem, hk2, hsome⟩
          rcases List.mem_cons.mp hmem with heq | hmem2
          · subst heq
            rw [hres] at hsome
            simp at hsome
          · exact ⟨c2, hmem2, hk2, hsome⟩
    · rw [tryEmpty_cons_other c cs method ps hk, ih]
      constructor
      · rintro ⟨c2, hmem, hk2, hsome⟩
        exact ⟨c2, List.mem_cons_of_mem c hmem, hk2, hsome⟩
      · rintro ⟨c2, hmem, hk2, hsome⟩
        rcases List.mem_cons.mp hmem with heq | hmem2
        · subst heq
          exact absurd hk2 hk
        · exact ⟨c2, hmem2, hk2, hsome⟩

theorem stripTrail_no_slash (l : List Char) (h : l.getLast? ≠ some '/') :
    stripTrail l = l := by
  rw [stripTrail]
  split
  · rename_i rest heq
    rw [← List.head?_reverse] at h
    rw [heq] at h
    simp at h
  · rfl

theorem stripTrail_append_slash (l : List Char) :
    stripTrail (l ++ ['/']) = l := by
  rw [stripTrail]
  split
  · rename_i rest heq
    rw [List.reverse_append] at heq
    simp only [List.reverse_cons, List.reverse_nil, List.nil_append,
      List.singleton_append, List.cons.injEq] at heq
    rw [← heq.2]
    simp
  · rename_i hmatch
    exact absurd (by simp [List.reverse_append]) (hmatch l.reverse)

theorem stripLead_cons_ne (c : Char) (cs : List Char) (hc : c ≠ '/') :
    stripLead (c :: cs) = c :: cs := by
  unfold stripLead
  split
  · rename_i rest heq
    injection heq with h1 h2
    exact absurd h1 hc
  · rfl

/-- Stripping one leading and one trailing slash identifies a path and
the same path with one `'/'` appended, for paths not already ending in
`'/'`. -/
theorem stripSlashes_append_slash (p : List Char) (h : p.getLast? ≠ some '/') :
    stripSlashes (p ++ ['/']) = stripSlashes p := by
  cases p with
  | nil => rfl
  | cons c cs =>
    by_cases hc : c = '/'
    · subst hc
      cases cs with
      | nil => exact absurd rfl h
      | cons c2 cs2 =>
        have h2 : (c2 :: cs2).getLast? ≠ some '/' := by
          rwa [List.getLast?_cons_cons] at h
        show stripTrail (stripLead (('/' :: c2 :: cs2) ++ ['/']))
          = stripTrail (stripLead ('/' :: c2 :: cs2))
        rw [show stripLead (('/' :: c2 :: cs2) ++ ['/'])
            = (c2 :: cs2) ++ ['/'] from rfl,
          show stripLead ('/' :: c2 :: cs2) = c2 :: cs2 from rfl]
        rw [stripTrail_append_slash, stripTrail_no_slash _ h2]
    · show stripTrail (stripLead ((c :: cs) ++ ['/']))
        = stripTrail (stripLead (c :: cs))
      rw [show ((c :: cs) ++ ['/']) = c :: (cs ++ ['/']) from rfl]
      rw [stripLead_cons_ne c (cs ++ ['/']) hc, stripLead_cons_ne c cs hc]
      rw [show stripTrail (c :: (cs ++ ['/'])) = c :: cs from
        stripTrail_append_slash (c :: cs)]
      rw [stripTrail_no_slash _ h]

/-! ## Executable mirror of the matcher

`rmatch` and its companions are defined by well-founded recursion on
the lexicographic measure and therefore do not reduce definitionally.
For evaluating concrete route trees the same recursion is repeated
below, structurally on an explicit fuel bound; `rmatchE_eq` proves the
mirror equal to `rmatch` whenever the fuel covers the measure. -/

mutual

def rmatchE (fuel : Nat) (r : RNode) (path : List Char) (method : String)
    (ps : Params) : Option (RNode × Chain) × Params :=
  match fuel with
  | 0 => (none, ps)
  | fuel + 1 =>
    match path with
    | [] =>
      match lookupA r.methods method with
      | some _ => (some (r, lookupD r.cache method), ps)
      | none =>
        match lookupA r.methods "ANY" with
        | some _ => (some (r, lookupD r.cache "ANY"), ps)
        | none => tryEmptyE fuel r.children method ps
    | c :: cs => matchChildrenE fuel r.children (c :: cs) method ps

def tryEmptyE (fuel : Nat) (l : List RNode) (method : String) (ps : Params) :
    Option (RNode × Chain) × Params :=
  match fuel with
  | 0 => (none, ps)
  | fuel + 1 =>
    match l with
    | [] => (none, ps)
    | c :: cs =>
      match c.kind with
      | .catchAll =>
        let stackLen := ps.length
        let ps1 := if c.paramName ≠ "" then ps ++ [(c.paramName, "")] else ps
        let res := rmatchE fuel c [] method ps1
        match res.1 with
        | some v => (some v, res.2)
        | none => tryEmptyE fuel cs method (res.2.take stackLen)
      | _ => tryEmptyE fuel cs method ps

def matchChildrenE (fuel : Nat) (l : List RNode) (path : List Char)
    (method : String) (ps : Params) : Option (RNode × Chain) × Params :=
  match fuel with
  | 0 => (none, ps)
  | fuel + 1 =>
    match l with
    | [] => (none, ps)
    | c :: cs =>
      let stackLen := ps.length
      match childAttempt c path ps with
      | none => matchChildrenE fuel cs path method ps
      | some (ps1, np) =>
        let res := rmatchE fuel c np method ps1
        match res.1 with
        | some v => (some v, res.2)
        | none => matchChildrenE fuel cs path method (res.2.take stackLen)

end

theorem RNode.one_le_sizeOf (r : RNode) : 1 ≤ sizeOf r := by
  cases r with
  | mk k f p rx fb fa m c ch =>
    simp
    omega

theorem rmatchE_eq :
    ∀ (r : RNode) (path : List Char) (method : String) (ps : Params)
      (fuel : Nat), path.length + sizeOf r ≤ fuel →
      rmatchE fuel r path method ps = rmatch r path method ps := by
  have H := rmatch.induct
    (fun r path method ps =>
      ∀ fuel : Nat, path.length + sizeOf r ≤ fuel →
        rmatchE fuel r path method ps = rmatch r path method ps)
    (fun l path method ps =>
      ∀ fuel : Nat, path.length + sizeOf l ≤ fuel →
        matchChildrenE fuel l path method ps = matchChildren l path method ps)
    (fun l method ps =>
      ∀ fuel : Nat, sizeOf l ≤ fuel →
        tryEmptyE fuel l method ps = tryEmpty l method ps)
  apply H
  · intro r method ps val hm fuel hf
    have h1 := RNode.one_le_sizeOf r
    obtain ⟨f, rfl⟩ : ∃ f, fuel = f + 1 :=
      ⟨fuel - 1, by simp at hf; omega⟩
    simp only [rmatchE, hm]
    rw [rmatch_nil, hm]
  · intro r method ps hm val ha fuel hf
    have h1 := RNode.one_le_sizeOf r
    obtain ⟨f, rfl⟩ : ∃ f, fuel = f + 1 :=
      ⟨fuel - 1, by simp at hf; omega⟩
    simp only [rmatchE, hm, ha]
    rw [rmatch_nil, hm, ha]
  · intro r method ps hm ha ih fuel hf
    have h1 := RNode.one_le_sizeOf r
    have h2 := RNode.sizeOf_children_lt r
    obtain ⟨f, rfl⟩ : ∃ f, fuel = f + 1 :=
      ⟨fuel - 1, by simp at hf; omega⟩
    simp only [rmatchE, hm, ha]
    rw [rmatch_nil, hm, ha]
    exact ih f (by simp at hf; omega)
  · intro r method ps c cs ih fuel hf
    have h2 := RNode.sizeOf_children_lt r
    obtain ⟨f, rfl⟩ : ∃ f, fuel = f + 1 :=
      ⟨fuel - 1, by simp at hf; omega⟩
    simp only [rmatchE]
    rw [rmatch_cons]
    exact ih f (by simp at hf ⊢; omega)
  · intro path method ps fuel hf
    obtain ⟨f, rfl⟩ : ∃ f, fuel = f + 1 :=
      ⟨fuel - 1, by simp at hf; omega⟩
    simp only [rmatchE, matchChildrenE]
    simp [matchChildren]
  · intro path method ps c cs hca ih fuel hf
    have hc1 := RNode.one_le_sizeOf c
    obtain ⟨f, rfl⟩ : ∃ f, fuel = f + 1 :=
      ⟨fuel - 1, by simp at hf; omega⟩
    simp only [matchChildrenE, hca]
    rw [matchChildren_cons_none c cs path method ps hca]
    exact ih f (by simp at hf ⊢; omega)
  · intro path method ps c cs ps1 np hca res v hv ih fuel hf
    have hv2 : (rmatch c np method ps1).1 = some v := hv
    have hc1 := RNode.one_le_sizeOf c
    have hnp := childAttempt_np_length c path ps ps1 np hca
    obtain ⟨f, rfl⟩ : ∃ f, fuel = f + 1 :=
      ⟨fuel - 1, by simp at hf; omega⟩
    simp only [matchChildrenE, hca]
    rw [ih f (by simp at hf ⊢; omega), hv2]
    rw [matchChildren_cons_hit c cs path method ps ps1 np v hca hv2]
  · intro path method ps c cs stackLen ps1 np hca res hv ih1 ih2 fuel hf
    have hv2 : (rmatch c np method ps1).1 = none := hv
    have hc1 := RNode.one_le_sizeOf c
    have hnp := childAttempt_np_length c path ps ps1 np hca
    obtain ⟨f, rfl⟩ : ∃ f, fuel = f + 1 :=
      ⟨fuel - 1, by simp at hf; omega⟩
    simp only [matchChildrenE, hca]
    rw [ih1 f (by simp at hf ⊢; omega), hv2]
    rw [matchChildren_cons_fail c cs path method ps ps1 np hca hv2]
    exact ih2 f (by simp at hf ⊢; omega)
  · intro method ps fuel hf
    obtain ⟨f, rfl⟩ : ∃ f, fuel = f + 1 :=
      ⟨fuel - 1, by simp at hf; omega⟩
    simp only [tryEmptyE]
    simp [tryEmpty]
  · intro method ps c cs hk ps1 res v hv ih fuel hf
    have hv2 : (rmatch c [] method (caBind c ps)).1 = some v := hv
    have hc1 := RNode.one_le_sizeOf c
    obtain ⟨f, rfl⟩ : ∃ f, fuel = f + 1 :=
      ⟨fuel - 1, by simp at hf; omega⟩
    simp only [tryEmptyE, hk]
    have hih : rmatchE f c [] method (caBind c ps)
        = rmatch c [] method (caBind c ps) := ih f (by simp at hf ⊢; omega)
    rw [show (if c.paramName ≠ "" then ps ++ [(c.paramName, "")] else ps)
        = caBind c ps from rfl]
    rw [hih, hv2]
    rw [tryEmpty_cons_ca_hit c cs method ps v hk hv2]
  · intro method ps c cs hk stackLen ps1 res hv ih1 ih1b ih2 fuel hf
    have hv2 : (rmatch c [] method (caBind c ps)).1 = none := hv
    have hc1 := RNode.one_le_sizeOf c
    obtain ⟨f, rfl⟩ : ∃ f, fuel = f + 1 :=
      ⟨fuel - 1, by simp at hf; omega⟩
    simp only [tryEmptyE, hk]
    have hih : rmatchE f c [] method (caBind c ps)
        = rmatch c [] method (caBind c ps) := ih1 f (by simp at hf ⊢; omega)
    rw [show (if c.paramName ≠ "" then ps ++ [(c.paramName, "")] else ps)
        = caBind c ps from rfl]
    rw [hih, hv2]
    rw [tryEmpty_cons_ca_fail c cs method ps hk hv2]
    exact ih2 f (by simp at hf ⊢; omega)
  · intro method ps c cs hk ih fuel hf
    have hc1 := RNode.one_le_sizeOf c
    obtain ⟨f, rfl⟩ : ∃ f, fuel = f + 1 :=
      ⟨fuel - 1, by simp at hf; omega⟩
    have hkb : c.kind ≠ .catchAll := by
      intro hc
      exact hk hc
    rw [tryEmpty_cons_other c cs method ps hkb]
    have hstep : tryEmptyE (f + 1) (c :: cs) method ps = tryEmptyE f cs method ps := by
      simp only [tryEmptyE]
    rw [hstep]
    exact ih f (by simp at hf ⊢; omega)

/-! ## Claims -/

/-- **C4** (onion symmetry): for a matched chain `[B1, B2, H, A1, A2]`
where `B1` and `B2` each perform a pre side effect, call `Next()`, then
perform a post side effect, one dispatch produces the side-effect order
`B1-pre, B2-pre, H, A1, A2, B2-post, B1-post`. -/
theorem c4_onion_symmetry (b1pre b1post b2pre b2post hev a1 a2 : String) :
    (dispatchChain
      [ .std "B1" [.emit b1pre, .callNext, .emit b1post] none none
      , .std "B2" [.emit b2pre, .callNext, .emit b2post] none none
      , .std "H" [.emit hev] none none
      , .std "A1" [.emit a1] none none
      , .std "A2" [.emit a2] none none ]
      { fid := 0, pipe := none, trace := [] }).trace
      = [b1pre, b2pre, hev, a1, a2, b2post, b1post] := by
  simp [dispatchChain, runNext, runBody]

def pipeChainC5 : List Entry :=
  [ .std "producer" [] (some 1) none
  , .std "consumer" [] none none ]

/-- **C5** (counterexample): in the chain `[producer, consumer]` the
pipe slot holds the value `1` after `producer` ran (the state reached
with fuel 1 has the cursor on `consumer`); `consumer` returns a nil
interface result with nil error, yet after the full dispatch the pipe
slot is nil, not `1` — `Next` assigns `x.PipeValue` unconditionally, so
the claimed frame condition is false. -/
theorem c5_pipe_frame_cex :
    (runNext pipeChainC5 1 { fid := 0, pipe := none, trace := [] }).pipe = some 1 ∧
    (runNext pipeChainC5 1 { fid := 0, pipe := none, trace := [] }).fid = 1 ∧
    pipeChainC5[1]? = some (.std "consumer" [] none none) ∧
    (dispatchChain pipeChainC5 { fid := 0, pipe := none, trace := [] }).pipe = none := by
  refine ⟨?_, ?_, rfl, ?_⟩ <;> simp [pipeChainC5, dispatchChain, runNext, runBody]

/-- **C5 amended**: after the adapted handler at the cursor returns
`(v, nil)`, the pipe slot equals exactly `v` — the returned value
replaces the slot unconditionally (`x.PipeValue, err = fc(x)`), so a
nil result clears the slot rather than leaving it unchanged. -/
theorem c5_pipe_assign_amended (fcs : List Entry) (st : PState) (nm : String)
    (es : List String) (v : Option PV) (n : Nat)
    (h : fcs[st.fid]? = some (.std nm (emits es) v none)) :
    runNext fcs (n + 1) st =
      runNext fcs n { fid := st.fid + 1, pipe := v, trace := st.trace ++ es } := by
  simp only [runNext, h]
  rw [runBody_emits]

theorem c5_pipe_assign_amended_witness :
    runNext [Entry.std "consumer" (emits []) none none] 1
        { fid := 0, pipe := some 1, trace := [] } =
      runNext [Entry.std "consumer" (emits []) none none] 0
        { fid := 1, pipe := none, trace := [] } :=
  c5_pipe_assign_amended [Entry.std "consumer" (emits []) none none]
    { fid := 0, pipe := some 1, trace := [] } "consumer" [] none 0 rfl

/-- **C3** (error routing): when the handler at the cursor returns a
non-nil error, the rest of the dispatch is exactly the forward error
search — the result no longer depends on the remaining fuel, i.e. no
further normal handler executes; `handleErr` invokes precisely the
`(ctx, error) → error` entries from the cursor forward, stopping at the
first that returns nil (request handled), carrying replacement errors
onward otherwise, never touching the pipe slot; and when no error
handler consumes the error a warning naming the originating handler is
appended. -/
theorem c3_error_routing (fcs : List Entry) (st : PState) (nm : String)
    (es : List String) (v : Option PV) (er : Err) :
    (∀ n : Nat,
      fcs[st.fid]? = some (.std nm (emits es) v (some er)) →
      runNext fcs (n + 1) st =
        (let st1 : PState :=
          { fid := st.fid + 1, pipe := v, trace := st.trace ++ es }
         let r := handleErr fcs st1 er
         if r.2 then r.1
         else { r.1 with trace := r.1.trace ++ ["unhandled error in " ++ nm] })) ∧
    (∀ (st2 : PState) (er2 : Err),
      (handleErr fcs st2 er2).1.pipe = st2.pipe ∧
      (handleErr fcs st2 er2).1.trace =
        st2.trace ++ (errSearchSpec (fcs.drop st2.fid) er2).1 ∧
      (handleErr fcs st2 er2).2 = (errSearchSpec (fcs.drop st2.fid) er2).2) := by
  constructor
  · intro n h
    simp only [runNext, h]
    rw [runBody_emits]
  · exact handleErr_spec fcs

def chainC3 : List Entry :=
  [ .std "M1" (emits []) none (some 5)
  , .std "M2" (emits ["M2"]) none none
  , .errh "EH" (fun _ => none) ]

theorem c3_error_routing_witness :
    runNext chainC3 4 { fid := 0, pipe := none, trace := [] } =
      (let st1 : PState := { fid := 1, pipe := none, trace := [] ++ [] }
       let r := handleErr chainC3 st1 5
       if r.2 then r.1
       else { r.1 with trace := r.1.trace ++ ["unhandled error in " ++ "M1"] }) ∧
    (handleErr chainC3 { fid := 1, pipe := none, trace := [] } 5).1.trace =
      [] ++ (errSearchSpec (chainC3.drop 1) 5).1 :=
  ⟨(c3_error_routing chainC3 { fid := 0, pipe := none, trace := [] }
      "M1" [] none 5).1 3 rfl,
    ((c3_error_routing chainC3 { fid := 0, pipe := none, trace := [] }
      "M1" [] none 5).2 { fid := 1, pipe := none, trace := [] } 5).2.1⟩

/-- **C7** (SkipBefore scope): when the composed chain contains a
`SkipBefore` sentinel, `ServeHTTP` slices the chain to begin
immediately after it, so dispatch equals the dispatch of the suffix
alone: every "before" entry preceding the sentinel never executes,
while the entries after it (the handlers and all "after" entries)
execute as usual. -/
theorem c7_skipbefore_scope (pre rest : List Entry) (st : PState)
    (h : ∀ e ∈ rest, e.isSkip = false) :
    sliceSkipBefore (pre ++ .skipBefore :: rest) = rest ∧
    dispatchChain (sliceSkipBefore (pre ++ .skipBefore :: rest)) st =
      dispatchChain rest st := by
  have hs := sliceSkipBefore_append pre rest h
  exact ⟨hs, by rw [hs]⟩

def preC7 : List Entry := [.std "Parent Before" [.emit "Parent Before"] none none]

def restC7 : List Entry :=
  [ .std "Skipped Handler" [.emit "Skipped Handler"] none none
  , .std "Parent After" [.emit "Parent After"] none none ]

theorem c7_skipbefore_scope_witness :
    (sliceSkipBefore (preC7 ++ .skipBefore :: restC7) = restC7 ∧
      dispatchChain (sliceSkipBefore (preC7 ++ .skipBefore :: restC7))
          { fid := 0, pipe := none, trace := [] }
        = dispatchChain restC7 { fid := 0, pipe := none, trace := [] }) ∧
    (dispatchChain restC7 { fid := 0, pipe := none, trace := [] }).trace
      = ["Skipped Handler", "Parent After"] :=
  ⟨c7_skipbefore_scope preC7 restC7 { fid := 0, pipe := none, trace := [] }
      (by intro e he; fin_cases he <;> rfl),
    by simp [restC7, dispatchChain, runNext, runBody]⟩

def hWildC1 : Entry := .std "wildcard-handler" [] none none

def hStaticPC1 : Entry := .std "static-p-handler" [] none none

def hParamC1 : Entry := .std "param-handler" [] none none

def hStaticQC1 : Entry := .std "static-q-handler" [] none none

def treePC1 : RNode :=
  routeSet (routeSet newRouter "/p/*" "GET" [hWildC1]) "/p/specific" "GET" [hStaticPC1]

def treeQC1 : RNode :=
  routeSet (routeSet newRouter "/q/{x}" "GET" [hParamC1]) "/q/specific" "GET" [hStaticQC1]

/-- **C1** (code evaluation at the failing input): with `GET /p/*`
registered before `GET /p/specific`, the wildcard child is sorted after
the static one, so `GET /p/specific` reaches the static handler — that
half of the claim holds.  But with `GET /q/{x}` registered before
`GET /q/specific`, the child sort demotes only wildcard/catch-all
children, the `{x}` param child stays first, matches the segment
`specific` and carries a GET terminal, so the request dispatches to the
`/q/{x}` handler with `x = "specific"` instead of the static handler —
contradicting the claim and the repository's own `TestRouterPriority2`,
which expects the static route to win. -/
theorem c1_specificity_code_eval :
    ((rmatch treePC1 (stripSlashes "/p/specific".data) "GET" []).1.map
        (fun nf => (nf.1.fragment, nf.2)) = some ("specific", [hStaticPC1])) ∧
    ((rmatch treeQC1 (stripSlashes "/q/specific".data) "GET" []).1.map
        (fun nf => (nf.1.fragment, nf.2)) = some ("{x}", [hParamC1])) ∧
    ((rmatch treeQC1 (stripSlashes "/q/specific".data) "GET" []).2
        = [("x", "specific")]) := by
  rw [← rmatchE_eq treePC1 (stripSlashes "/p/specific".data) "GET" [] 100000
      (by decide),
    ← rmatchE_eq treeQC1 (stripSlashes "/q/specific".data) "GET" [] 100000
      (by decide)]
  exact ⟨rfl, rfl, rfl⟩

/-- **C2** (backtracking cleanliness): when a child branch matches the
current segment but the recursion below it fails to reach a terminal,
the parameter vector handed to the next sibling is truncated back to
exactly its pre-attempt value, and the overall result is as if the
failed child were absent — so the handler of the route that finally
matches observes only that route's own bindings, with no residue from
the failed branch. -/
theorem c2_backtracking_cleanliness (c : RNode) (cs : List RNode)
    (path : List Char) (method : String) (ps ps1 : Params) (np : List Char)
    (hca : childAttempt c path ps = some (ps1, np))
    (hfail : (rmatch c np method ps1).1 = none) :
    (rmatch c np method ps1).2.take ps.length = ps ∧
    matchChildren (c :: cs) path method ps = matchChildren cs path method ps := by
  have h2 := rmatch_restore c np method ps1 hfail
  obtain ⟨d, hd⟩ := childAttempt_extend c path ps ps1 np hca
  have htake : (rmatch c np method ps1).2.take ps.length = ps := by
    rw [h2, hd]
    simpa using List.take_left ps d
  exact ⟨htake, by
    rw [matchChildren_cons_fail c cs path method ps ps1 np hca hfail, htake]⟩

def hDC2 : Entry := .std "d-handler" [] none none

def hCC2 : Entry := .std "c-handler" [] none none

def childP1C2 : RNode :=
  .mk .param "{p1}" "p1" none [] []
    [] [] [.mk .static "d" "" none [] [] [("GET", [hDC2])] [("GET", [hDC2])] []]

def childP2C2 : RNode :=
  .mk .param "{p2}" "p2" none [] []
    [] [] [.mk .static "c" "" none [] [] [("GET", [hCC2])] [("GET", [hCC2])] []]

theorem c2_backtracking_cleanliness_witness :
    ((rmatch childP1C2 "c".data "GET"
        [("seed", "s"), ("p1", "x")]).2.take
          ([("seed", "s")] : Params).length = [("seed", "s")] ∧
      matchChildren [childP1C2, childP2C2] "x/c".data "GET" [("seed", "s")]
        = matchChildren [childP2C2] "x/c".data "GET" [("seed", "s")]) ∧
    (matchChildren [childP1C2, childP2C2] "x/c".data "GET" [("seed", "s")]).2
      = [("seed", "s"), ("p2", "x")] := by
  have hfail : (rmatch childP1C2 "c".data "GET" [("seed", "s"), ("p1", "x")]).1
      = none := by
    rw [← rmatchE_eq childP1C2 "c".data "GET" [("seed", "s"), ("p1", "x")] 100000
      (by decide)]
    rfl
  have hmain := c2_backtracking_cleanliness childP1C2 [childP2C2] "x/c".data
    "GET" [("seed", "s")] [("seed", "s"), ("p1", "x")] "c".data rfl hfail
  refine ⟨hmain, ?_⟩
  rw [hmain.2]
  have hca2 : childAttempt childP2C2 "x/c".data [("seed", "s")]
      = some ([("seed", "s"), ("p2", "x")], "c".data) := rfl
  have hfull : rmatch childP2C2 "c".data "GET" [("seed", "s"), ("p2", "x")]
      = rmatchE 100000 childP2C2 "c".data "GET" [("seed", "s"), ("p2", "x")] :=
    (rmatchE_eq childP2C2 "c".data "GET" [("seed", "s"), ("p2", "x")] 100000
      (by decide)).symm
  have h1 : (rmatch childP2C2 "c".data "GET" [("seed", "s"), ("p2", "x")]).1
      = some (RNode.mk .static "c" "" none [] [] [("GET", [hCC2])]
          [("GET", [hCC2])] [], [hCC2]) := by
    rw [hfull]
    rfl
  rw [matchChildren_cons_hit childP2C2 [] "x/c".data "GET" [("seed", "s")]
    [("seed", "s"), ("p2", "x")] "c".data _ hca2 h1]
  rw [hfull]
  rfl

/-- **C6** (matcher termination and 404): at an exhausted path the node
is accepted iff it has a handler record for the request method, else
iff it has one under `ANY`, else iff some catch-all child accepts the
empty remainder; `ServeHTTP` responds 404 exactly when no node is
accepted or the accepted node's chain is empty; and `/foo/**` does
match `/foo`. -/
theorem c6_matcher_termination_404 :
    (∀ (r : RNode) (method : String) (ps : Params),
      (rmatch r [] method ps).1.isSome = true ↔
        (lookupA r.methods method).isSome = true ∨
        (lookupA r.methods "ANY").isSome = true ∨
        ∃ c ∈ r.children, c.kind = .catchAll ∧
          (rmatch c [] method (caBind c ps)).1.isSome = true) ∧
    (∀ (root : RNode) (method p : String),
      serve root method p = .notFound ↔
        (rmatch root (stripSlashes p.data) method []).1 = none ∨
        ∃ n, (rmatch root (stripSlashes p.data) method []).1 = some (n, [])) ∧
    ((rmatch (routeSet newRouter "/foo/**" "GET" [.std "foo" [] none none])
        (stripSlashes "/foo".data) "GET" []).1.isSome = true) := by
  refine ⟨?_, ?_, ?_⟩
  · intro r method ps
    rw [rmatch_nil]
    cases hm : lookupA r.methods method with
    | some v => simp [hm]
    | none =>
      cases ha : lookupA r.methods "ANY" with
      | some v => simp [ha]
      | none => simp [hm, ha, tryEmpty_isSome_iff]
  · intro root method p
    simp only [serve]
    cases hr : (rmatch root (stripSlashes p.data) method []).1 with
    | none => simp [hr]
    | some nf =>
      rcases nf with ⟨n, fcs⟩
      by_cases hl : fcs.length > 0
      · have hne : fcs ≠ [] := by
          intro hc
          rw [hc] at hl
          simp at hl
        simp only [hr, hl, if_pos, gt_iff_lt]
        constructor
        · intro hcon
          simp at hcon
        · rintro (hcon | ⟨n2, hn2⟩)
          · exact Option.noConfusion hcon
          · injection hn2 with hn3
            injection hn3 with hn4 hn5
            exact absurd hn5 hne
      · have hz : fcs = [] := by
          simpa using Nat.le_zero.mp (Nat.le_of_not_lt hl)
        subst hz
        simp [hr]
  · rw [← rmatchE_eq
      (routeSet newRouter "/foo/**" "GET" [.std "foo" [] none none])
      (stripSlashes "/foo".data) "GET" [] 100000 (by decide)]
    rfl

/-- **C10** (trailing-slash normalization): `ServeHTTP` strips exactly
one leading and one trailing `'/'`, so a request path with a trailing
slash normalizes to the same string as the path without it, and
matching and the whole `ServeHTTP` outcome coincide. -/
theorem c10_trailing_slash (root : RNode) (method : String) (p : List Char)
    (h : p.getLast? ≠ some '/') :
    stripSlashes (p ++ ['/']) = stripSlashes p ∧
    rmatch root (stripSlashes (p ++ ['/'])) method []
      = rmatch root (stripSlashes p) method [] ∧
    serve root method (String.mk (p ++ ['/'])) = serve root method (String.mk p) := by
  have hs := stripSlashes_append_slash p h
  refine ⟨hs, by rw [hs], ?_⟩
  simp only [serve]
  rw [hs]

def treeC10 : RNode := routeSet newRouter "/a" "GET" [.std "a-handler" [] none none]

theorem c10_trailing_slash_witness :
    stripSlashes ("/a".data ++ ['/']) = stripSlashes "/a".data ∧
    rmatch treeC10 (stripSlashes ("/a".data ++ ['/'])) "GET" []
      = rmatch treeC10 (stripSlashes "/a".data) "GET" [] ∧
    serve treeC10 "GET" (String.mk ("/a".data ++ ['/']))
      = serve treeC10 "GET" (String.mk "/a".data) :=
  c10_trailing_slash treeC10 "GET" "/a".data (by decide)

def xC8 : XState :=
  { request := some 1
    writer := some 2
    pathParams := { backing := [("k", "v"), ("old", "w")], len := 1 }
    routeVars := some [("a", 3)]
    fcs := [.std "hh" [] none none]
    fcsInfo := ["handler-info"]
    fid := 7
    pipeValue := some 9 }

/-- **C8** (counterexample): `release` leaves the introspection vector
`x.fcsInfo` in place — the context released here retains
`["handler-info"]`, so not every reference-holding field is cleared. -/
theorem c8_release_cex :
    (releaseX xC8).fcsInfo = ["handler-info"] ∧ (releaseX xC8).fcsInfo ≠ [] :=
  ⟨rfl, by decide⟩

theorem clearUpTo_getElem? (n : Nat) (l : List (String × String)) (i : Nat)
    (hi : i < n) :
    (clearUpTo n l)[i]? = (l[i]?).map (fun _ => ("", "")) := by
  induction n generalizing l i with
  | zero => exact absurd hi (Nat.not_lt_zero i)
  | succ n ih =>
    cases l with
    | nil => simp [clearUpTo]
    | cons p rest =>
      cases i with
      | zero => simp [clearUpTo]
      | succ i =>
        simp only [clearUpTo, List.getElem?_cons_succ]
        exact ih rest i (Nat.lt_of_succ_lt_succ hi)

/-- **C8 amended**: after `release`, the request, response writer,
chain, pipe value, route-local variable map and cursor are cleared, the
path-parameter vector is truncated to length zero with each entry of
its live window zeroed (not merely the length reset) — but the
introspection vector `fcsInfo` is retained, not cleared. -/
theorem c8_release_amended (x : XState) :
    (releaseX x).request = none ∧
    (releaseX x).writer = none ∧
    (releaseX x).fcs = [] ∧
    (releaseX x).pipeValue = none ∧
    (releaseX x).routeVars = none ∧
    (releaseX x).fid = 0 ∧
    (releaseX x).pathParams.len = 0 ∧
    (∀ i, i < x.pathParams.len →
      (releaseX x).pathParams.backing[i]? =
        (x.pathParams.backing[i]?).map (fun _ => ("", ""))) ∧
    (releaseX x).fcsInfo = x.fcsInfo := by
  refine ⟨rfl, rfl, rfl, rfl, rfl, rfl, rfl, ?_, rfl⟩
  intro i hi
  exact clearUpTo_getElem? x.pathParams.len x.pathParams.backing i hi

theorem c8_release_amended_witness :
    (releaseX xC8).request = none ∧
    (releaseX xC8).pathParams.backing[0]? =
      ((xC8.pathParams.backing[0]?).map (fun _ => ("", ""))) :=
  ⟨(c8_release_amended xC8).1,
    (c8_release_amended xC8).2.2.2.2.2.2.2.1 0 (by decide)⟩

/-- **C9** (counterexample): the claim's untagged fallback — the
lookup key is the literal field name — is refuted by the repository's
own passing tests: in `TestParseEmptyVsMissing` the query holds exactly
the keys `q_req` and `q_opt`, yet the untagged field `QReq` binds,
which the literal-name rule cannot account for; hence the literal rule
fails the recorded test evidence as a whole. -/
theorem c9_bindkey_cex :
    factHolds litRule { fname := "QReq", keys := ["q_req", "q_opt"] }
      = false ∧
    evidenceHolds litRule = false := by
  exact ⟨by decide, by decide⟩

/-- **C9 amended**: with `X.Parse` absent from the sources, the key
rule can only be bounded by the test evidence, which forces exactly
this much: ANY key rule consistent with the recorded binding facts must
bind field `Name` from key `Name` and field `ID` from key `ID` (the
original field casing, from `TestPipeline_Standardize` and
`TestPipeline_AutoStandardize`) and must bind field `QReq` from one of
the snake-cased keys `q_req`/`q_opt` (from `TestParseEmptyVsMissing`);
accepting a key equal to the literal field name or to its snake-cased
form is consistent with every recorded fact, while the snake-cased form
alone is not; and the embedded snake-casing agrees with every example
documented on `utils.CamelToSnake` in the source. -/
theorem c9_bindkey_amended :
    (∀ rule : KeyRule, evidenceHolds rule = true →
      rule "Name" "Name" = true ∧
      rule "ID" "ID" = true ∧
      (rule "QReq" "q_req" = true ∨ rule "QReq" "q_opt" = true)) ∧
    evidenceHolds eitherRule = true ∧
    evidenceHolds snakeRule = false ∧
    camelToSnake "QReq" = "q_req" ∧
    camelToSnake "Name" = "name" ∧
    camelToSnake "ID" = "id" ∧
    camelToSnake "CamelToSnake" = "camel_to_snake" ∧
    camelToSnake "APIKey" = "api_key" ∧
    camelToSnake "AbcID" = "abc_id" ∧
    camelToSnake "caseID" = "case_id" ∧
    camelToSnake "ABCDef" = "abc_def" := by
  refine ⟨?_, by decide, by decide, rfl, rfl, rfl, rfl, rfl, rfl, rfl, rfl⟩
  intro rule h
  simp only [evidenceHolds, binderEvidence, factHolds, List.all_cons,
    List.all_nil, List.any_cons, List.any_nil, Bool.and_eq_true,
    Bool.or_eq_true, Bool.false_eq_true, or_false] at h
  obtain ⟨hq, -, -, -, -, -, -, -, -, -, -, -, hn, hid, -⟩ := h
  exact ⟨hn, hid, hq⟩

theorem c9_bindkey_amended_witness :
    eitherRule "Name" "Name" = true ∧
    eitherRule "ID" "ID" = true ∧
    (eitherRule "QReq" "q_req" = true ∨ eitherRule "QReq" "q_opt" = true) :=
  c9_bindkey_amended.1 eitherRule (by decide)

end Vigo
